import Mathlib

/- Verification of the resume ATS analyzer (Go sources: services/nlp.go,
   services/scorer.go, services/parser.go, models/resume.go, utils/helpers.go).

   Modelling conventions, used throughout:
   * Go float64 arithmetic is modelled over ℚ (exact rationals); the properties
     settled here concern signs, ranges and exactly representable values
     (0, 1, 0.8, 50, 100, sums of quotients), which rounding preserves.
   * math.Log over float64 is modelled with Real.log over ℝ
     (math.Log(1) = 0 exactly in float64, matching Real.log_one).
   * Strings are modelled character-wise; all inputs considered are ASCII,
     where Go's byte-level len/indexing and byte-level strings.Contains agree
     with the character-level operations used here.
   * Go maps used as sets or dictionaries are modelled by lists carrying the
     same membership/contents; every modelled result that is deterministic in
     the source depends only on membership (not on Go's randomized map
     iteration order).  The one map-order-sensitive output (ExtractKeywords)
     is modelled as a relation between input and possible outputs. -/

set_option maxRecDepth 10000

/-- ASCII lower-casing of one character; models what Go strings.ToLower does to
an ASCII character. -/
def lowerChar (c : Char) : Char :=
  if 65 ≤ c.toNat ∧ c.toNat ≤ 90 then Char.ofNat (c.toNat + 32) else c

/-- Go strings.ToLower, restricted to ASCII strings. -/
def lowerStr (s : String) : String := String.mk (s.toList.map lowerChar)

/-- Substring containment on character lists: true iff sub occurs contiguously
in the list.  Models Go strings.Contains (byte-based, which on ASCII input is
character-based). -/
def containsSub (sub : List Char) : List Char → Bool
  | [] => sub.isEmpty
  | c :: t => sub.isPrefixOf (c :: t) || containsSub sub t

/-- Go strings.Contains s sub (ASCII). -/
def strContains (s sub : String) : Bool := containsSub sub.toList s.toList

/-- ASCII whitespace characters trimmed by Go strings.TrimSpace (the inputs
considered contain no other whitespace code points). -/
def isSpaceChar (c : Char) : Bool := c = ' ' || c = '\t' || c = '\n' || c = '\r'

/-- Go strings.TrimSpace (ASCII whitespace). -/
def trimStr (s : String) : String :=
  String.mk (((s.toList.dropWhile isSpaceChar).reverse.dropWhile isSpaceChar).reverse)

/-- An apostrophe character, used to spell the degree aliases that contain one. -/
def apos : String := String.singleton (Char.ofNat 39)

/-- The fixed degree-equivalence alias table of Scorer.educationMatches
(scorer.go).  The Go source stores it in a map iterated in unspecified order;
since educationMatches only ORs the per-class verdicts together, the outcome
is order-independent and a list in the written order is a faithful model. -/
def degreeEquivalents : List (String × List String) :=
  [("bachelor", ["bs", "ba", "btech", "bsc", "bachelor" ++ apos ++ "s"]),
   ("master", ["ms", "ma", "mtech", "msc", "master" ++ apos ++ "s", "mba"]),
   ("phd", ["doctorate", "doctoral", "ph.d"])]

/-- Scorer.educationMatches (scorer.go): lower-case both degree strings, accept
on direct substring containment either way, otherwise accept iff both sides
mention the same equivalence class (class name or any of its aliases). -/
def educationMatches (candidateEd requiredEd : String) : Bool :=
  let candidate := lowerStr candidateEd
  let required := lowerStr requiredEd
  if strContains candidate required || strContains required candidate then true
  else
    degreeEquivalents.any (fun dq =>
      let candidateHasDegree :=
        strContains candidate dq.1 || dq.2.any (fun a => strContains candidate a)
      let requiredHasDegree :=
        strContains required dq.1 || dq.2.any (fun a => strContains required a)
      candidateHasDegree && requiredHasDegree)

/-- Go's three-argument min helper (nlp.go, func min). -/
def min3 (a b c : Nat) : Nat :=
  if a < b then (if a < c then a else c) else (if b < c then b else c)

/-- One inner iteration sweep of the Levenshtein dynamic-programming loop in
NLPService.calculateStringSimilarity (nlp.go): given the remaining characters
of s2, the remaining tail of the previous matrix row starting at column j-1,
and the value just computed to the left (matrix[i][j-1]), produce the entries
matrix[i][j..].  matrix[i][j] = min(matrix[i-1][j]+1, matrix[i][j-1]+1,
matrix[i-1][j-1]+cost) with cost 0 iff the characters agree. -/
def levRowAux (c1 : Char) : List Char → List Nat → Nat → List Nat
  | c2 :: t2, pPrev :: pCur :: pRest, left =>
      let cost := if c1 = c2 then 0 else 1
      let v := min3 (pCur + 1) (left + 1) (pPrev + cost)
      v :: levRowAux c1 t2 (pCur :: pRest) v
  | _, _, _ => []

/-- The outer Levenshtein loop: starting from row 0 = [0, 1, ..., len(s2)],
compute each subsequent matrix row (row i starts with matrix[i][0] = i). -/
def levRows (s2 : List Char) : List Char → List Nat → Nat → List Nat
  | [], prev, _ => prev
  | c1 :: t1, prev, i => levRows s2 t1 ((i + 1) :: levRowAux c1 s2 prev (i + 1)) (i + 1)

/-- The full dynamic-programming edit distance matrix[len(s1)][len(s2)] of
calculateStringSimilarity (nlp.go): last entry of the last row. -/
def levDistance (s1 s2 : List Char) : Nat :=
  (levRows s2 s1 (List.range (s2.length + 1)) 0).getLastD 0

/-- NLPService.calculateStringSimilarity (nlp.go), over ℚ.  Note the two early
returns: when one argument is empty the function returns the OTHER string's
length (not a normalized similarity), which makes the maxLen == 0 branch
below unreachable — kept verbatim from the source. -/
def calculateStringSimilarity (s1 s2 : String) : ℚ :=
  if s1.length = 0 then (s2.length : ℚ)
  else if s2.length = 0 then (s1.length : ℚ)
  else
    let distance := levDistance s1.toList s2.toList
    let maxLen := max s1.length s2.length
    if maxLen = 0 then 1 else 1 - (distance : ℚ) / (maxLen : ℚ)

/-- The per-job-skill loop of NLPService.CalculateSkillMatch (nlp.go),
returning (matched, missing) in encounter order.  The Go resumeSet is a map
used as a set; only membership and the existence of a fuzzily similar member
are consulted (and every success appends the same value jobSkill), so the set
is faithfully modelled by the list of inserted keys and the outcome is
independent of map iteration order. -/
def skillScan (resumeSet : List String) : List String → List String × List String
  | [] => ([], [])
  | jobSkill :: rest =>
      let jobSkillLower := lowerStr jobSkill
      let found :=
        resumeSet.contains jobSkillLower ||
        resumeSet.any (fun resumeSkill =>
          decide (calculateStringSimilarity resumeSkill jobSkillLower > (0.8 : ℚ)))
      let mm := skillScan resumeSet rest
      if found then (jobSkill :: mm.1, mm.2) else (mm.1, jobSkill :: mm.2)

/-- NLPService.CalculateSkillMatch (nlp.go): lower-case the resume skills into
a set, match each job skill exactly or by Levenshtein similarity > 0.8, and
return (percentage, matched, missing), the percentage being
matched/totalJobSkills*100 and 0 when no job skills are supplied. -/
def CalculateSkillMatch (resumeSkills jobSkills : List String) :
    ℚ × List String × List String :=
  let resumeSet := resumeSkills.map lowerStr
  let mm := skillScan resumeSet jobSkills
  let matchPercentage : ℚ :=
    if 0 < jobSkills.length then (mm.1.length : ℚ) / (jobSkills.length : ℚ) * 100
    else 0
  (matchPercentage, mm.1, mm.2)

/-- models.PersonalInfo (models/resume.go). -/
structure PersonalInfo where
  Name : String := ""
  Email : String := ""
  Phone : String := ""
  Address : String := ""
deriving DecidableEq

/-- models.Education (models/resume.go). -/
structure Education where
  Degree : String := ""
  Institution : String := ""
  Year : ℤ := 0
  GPA : String := ""
deriving DecidableEq

/-- models.Experience (models/resume.go).  time.Time values are modelled as
exact rational timestamps measured in hours (the unit in which the source
consumes them via duration.Hours()); EndDate = none models a nil *time.Time. -/
structure Experience where
  Company : String := ""
  Position : String := ""
  StartDate : ℚ := 0
  EndDate : Option ℚ := none
  Description : String := ""
  IsCurrent : Bool := false
deriving DecidableEq

/-- models.Project (models/resume.go). -/
structure Project where
  Name : String := ""
  Description : String := ""
  Technologies : List String := []
deriving DecidableEq

/-- models.Resume (models/resume.go). -/
structure Resume where
  PersonalInfo : PersonalInfo := {}
  Education : List Education := []
  Experience : List Experience := []
  Skills : List String := []
  Projects : List Project := []
  Certifications : List String := []
  RawText : String := ""
  FormatIssues : List String := []
deriving DecidableEq

/-- models.JobDescription (models/jobdescription.go). -/
structure JobDescription where
  Title : String := ""
  Company : String := ""
  RequiredSkills : List String := []
  PreferredSkills : List String := []
  MinExperience : ℤ := 0
  Education : List String := []
  Location : String := ""
  Description : String := ""
  Keywords : List String := []
  RawText : String := ""
deriving DecidableEq

/-- models.ExperienceResult (models/analysis.go). -/
structure ExperienceResult where
  Score : ℚ
  YearsRequired : ℤ
  YearsCandidate : ℚ
  MeetsRequirement : Bool
deriving DecidableEq

/-- Resume.CalculateExperienceYears (models/resume.go).  The Go method reads
the ambient clock (now := time.Now()) and uses it as the end date of every
entry whose EndDate is nil; here the clock value is an explicit parameter so
that the dependence can be stated.  Each entry contributes
(endDate − StartDate) hours / (24*365.25). -/
def CalculateExperienceYears (now : ℚ) (r : Resume) : ℚ :=
  (r.Experience.map (fun exp =>
    let endDate := exp.EndDate.getD now
    let duration := endDate - exp.StartDate
    duration / (24 * 365.25))).sum

/-- Scorer.calculateExperienceMatch (scorer.go), the function whose result
AnalyzeResume stores verbatim in AnalysisResult.ExperienceMatch: score 1.0
when no years are required or the candidate meets them, otherwise
candidateYears/requiredYears capped above at 1.0 (no cap below). -/
def calculateExperienceMatch (now : ℚ) (resume : Resume) (jobDesc : JobDescription) :
    ExperienceResult :=
  let candidateYears := CalculateExperienceYears now resume
  let requiredYears : ℚ := (jobDesc.MinExperience : ℚ)
  let score : ℚ :=
    if requiredYears = 0 then 1
    else if candidateYears ≥ requiredYears then 1
    else
      let s := candidateYears / requiredYears
      if s > 1 then 1 else s
  { Score := score
    YearsRequired := jobDesc.MinExperience
    YearsCandidate := candidateYears
    MeetsRequirement := decide (candidateYears ≥ requiredYears) }

/-- An experience entry whose end date (hour 0) precedes its start date
(hour 17532 = exactly two years of 8766 hours): duration −2 years. -/
def expBackwards : Experience := { StartDate := 17532, EndDate := some 0 }

/-- A resume holding only the backwards experience entry. -/
def r3 : Resume := { Experience := [expBackwards] }

/-- A job description requiring one year of experience. -/
def jd3 : JobDescription := { MinExperience := 1 }

/-- An experience entry with no end date (Go: nil EndDate, "current"). -/
def expOpen : Experience := { StartDate := 0, EndDate := none }

/-- A resume holding only the open-ended experience entry. -/
def r4 : Resume := { Experience := [expOpen] }

/-- An experience entry lasting exactly one year (8766 hours). -/
def expClosed : Experience := { StartDate := 0, EndDate := some 8766 }

/-- A resume holding only the closed one-year experience entry. -/
def r4w : Resume := { Experience := [expClosed] }

/-- A resume with every field at its zero value (no experience entries). -/
def rEmpty : Resume := {}

/-- Go strings.Split(text, "\n") on character lists: accumulate the current
line (reversed) and cut at every newline; a trailing newline yields a final
empty field, the empty string yields one empty field, exactly as in Go. -/
def splitLinesAux : List Char → List Char → List (List Char)
  | [], acc => [acc.reverse]
  | c :: t, acc =>
      if c = '\n' then acc.reverse :: splitLinesAux t [] else splitLinesAux t (c :: acc)

/-- Go strings.Split(text, "\n"). -/
def splitLines (s : String) : List String := (splitLinesAux s.toList []).map String.mk

/-- The project-heading test of Parser.extractProjects (parser.go).  The Go
regex (?i)(project|projects?)[\s:]* matches a line iff the line contains
"project" case-insensitively: both alternatives begin with the literal
"project" and the trailing [\s:]* matches the empty string, so MatchString
reduces to this substring test. -/
def projectLineMatches (l : String) : Bool := strContains (lowerStr l) "project"

/-- The collection loop of Parser.extractProjects (parser.go): for j := i+1;
j < len(lines) && j < i+10; j++ visits at most (i+10) − (i+1) = 9 lines; the
fuel argument counts the remaining iterations.  Each visited line is trimmed
and kept as a Project with Name = Description when its length exceeds 10 (the
Go Technologies field is left nil). -/
def projCollect : Nat → List String → List Project
  | 0, _ => []
  | _, [] => []
  | Nat.succ k, l :: rest =>
      let projectLine := trimStr l
      if 10 < projectLine.length then
        { Name := projectLine, Description := projectLine, Technologies := [] } ::
          projCollect k rest
      else projCollect k rest

/-- Parser.extractProjects (parser.go): find the first line matching the
project pattern (the loop breaks after processing it), then collect project
entries from the at most 9 following lines. -/
def extractProjects (text : String) : List Project :=
  let lines := splitLines text
  match lines.findIdx? projectLineMatches with
  | none => []
  | some i => projCollect 9 (lines.drop (i + 1))

/-- One iteration of the collection loop as an Option-valued entry selector,
used to characterize projCollect as take-then-filterMap. -/
def projEntry (l : String) : Option Project :=
  if 10 < (trimStr l).length then
    some { Name := trimStr l, Description := trimStr l, Technologies := [] }
  else none

/-- A "Projects" heading followed by ten lines of twelve characters each. -/
def ex6 : String :=
  "Projects\nabcdefghijkl\nabcdefghijkl\nabcdefghijkl\nabcdefghijkl\nabcdefghijkl\nabcdefghijkl\nabcdefghijkl\nabcdefghijkl\nabcdefghijkl\nabcdefghijkl"

/-- A "projects" heading followed by one line of twelve characters. -/
def ex6w : String := "projects\nAAAAAAAAAAAA"

/-- Go strings.FieldsFunc-style splitter: the maximal runs of characters
satisfying keep, in order. -/
def fieldsAux (keep : Char → Bool) : List Char → List Char → List (List Char)
  | [], acc => if acc.isEmpty then [] else [acc.reverse]
  | c :: t, acc =>
      if keep c then fieldsAux keep t (c :: acc)
      else if acc.isEmpty then fieldsAux keep t []
      else acc.reverse :: fieldsAux keep t []

/-- The keep-predicate of NLPService.Tokenize (nlp.go): Go splits on every
rune that is neither a letter nor a number (unicode.IsLetter/IsNumber;
ASCII fragment). -/
def isTokenChar (c : Char) : Bool := c.isAlpha || c.isDigit

/-- The fixed stop-word set of NewNLPService (nlp.go): the key set of the Go
map (membership-only use, so a list is a faithful model). -/
def stopWords : List String :=
  ["a", "an", "and", "are", "as", "at",
   "be", "by", "for", "from", "has", "he",
   "in", "is", "it", "its", "of", "on",
   "that", "the", "to", "was", "were", "will",
   "with", "you", "your", "have", "had", "this",
   "they", "we", "our", "us", "can", "could",
   "would", "should", "may", "might", "must"]

/-- NLPService.Tokenize (nlp.go): lower-case the text, split on
non-alphanumeric characters, trim each word (a no-op after this split, kept
from the source), and keep the words of length > 2 that are not stop words. -/
def Tokenize (text : String) : List String :=
  let words := (fieldsAux isTokenChar (lowerStr text).toList []).map String.mk
  (words.map trimStr).filter (fun word =>
    decide (2 < word.length) && !stopWords.contains word)

/-- First-occurrence deduplication with an explicit seen accumulator,
modelling the incremental key insertion of a Go map. -/
def dedupGo : List String → List String → List String
  | [], _ => []
  | x :: xs, seen =>
      if x ∈ seen then dedupGo xs seen else x :: dedupGo xs (x :: seen)

/-- The contents of the termFreq map built by ExtractKeywords and
CalculateTFIDF (nlp.go): one entry per distinct token, carrying its number of
occurrences.  The first-encounter order of this list is canonical only — the
Go map is unordered — which matters solely for ExtractKeywords, where it is
handled by quantifying over permutations. -/
def termFreqList (ts : List String) : List (String × Nat) :=
  (dedupGo ts []).map (fun t => (t, ts.count t))

/-- The possible outputs of NLPService.ExtractKeywords (nlp.go).  The Go code
ranges over the termFreq map — an iteration order the Go runtime deliberately
randomizes — to build the scores slice, and sorts it with sort.Slice, which
is documented as not stable, under the comparator score_i > score_j.  The
reachable results are therefore: take topK of the keys of some permutation of
the termFreq entries that is weakly sorted by descending count.  Every output
of the code has this shape, and each such list is actually reached: the map
iteration that enumerates it in order leaves the sort nothing to do. -/
def ExtractKeywordsCanReturn (text : String) (topK : Nat) (ys : List String) : Prop :=
  ∃ l : List (String × Nat),
    l.Perm (termFreqList (Tokenize text)) ∧
    l.Pairwise (fun a b => b.2 ≤ a.2) ∧
    ys = (l.map Prod.fst).take topK

/-- Go doc.Terms[term] with the map's zero default (nlp.go, CalculateTFIDF). -/
def tfOf (doc : List (String × Nat)) (term : String) : Nat :=
  (doc.lookup term).getD 0

/-- The document length by which CalculateTFIDF normalizes a term frequency:
the sum of all stored frequencies of the document (nlp.go). -/
def docLen (doc : List (String × Nat)) : Nat := (doc.map Prod.snd).sum

/-- NLPService.CalculateTFIDF (nlp.go), as the score of one term (the Go
function returns the map carrying this value for every term of the corpus):
each document is tokenized into its term-frequency map, df counts the
documents containing the term, idf = log(numDocs/df), and the score sums
normalizedTF · idf over the documents where the term occurs. -/
noncomputable def CalculateTFIDF (documents : List String) (term : String) : ℝ :=
  let docs := documents.map (fun docText => termFreqList (Tokenize docText))
  let numDocs : ℝ := (documents.length : ℝ)
  let df : Nat := (docs.filter (fun doc => decide (0 < tfOf doc term))).length
  let idf : ℝ := Real.log (numDocs / (df : ℝ))
  (docs.map (fun doc =>
    if 0 < tfOf doc term then ((tfOf doc term : ℝ) / (docLen doc : ℝ)) * idf
    else 0)).sum

/-- utils.RemoveDuplicates inner loop (helpers.go): the keys map is modelled
by the seen list; each item is trimmed and kept iff nonempty and unseen. -/
def removeDupAux (keys : List String) : List String → List String
  | [] => []
  | item :: rest =>
      let it := trimStr item
      if it ≠ "" ∧ it ∉ keys then it :: removeDupAux (it :: keys) rest
      else removeDupAux keys rest

/-- utils.RemoveDuplicates (helpers.go). -/
def RemoveDuplicates (slice : List String) : List String := removeDupAux [] slice

/-- The fixed skill-keyword dictionary of Parser.extractSkills and
Parser.extractJDSkills (parser.go). -/
def skillKeywords : List String :=
  ["python", "java", "javascript", "typescript", "go", "golang", "rust", "c++", "c#",
   "react", "angular", "vue", "nodejs", "express", "django", "flask", "spring",
   "sql", "mysql", "postgresql", "mongodb", "redis", "elasticsearch",
   "aws", "azure", "gcp", "docker", "kubernetes", "terraform", "ansible",
   "git", "github", "gitlab", "jenkins", "ci/cd", "devops",
   "machine learning", "deep learning", "tensorflow", "pytorch", "scikit-learn",
   "html", "css", "bootstrap", "tailwind", "sass", "less"]

/-- Parser.extractSkills (parser.go), computing the value that ParseResume
stores unchanged into Resume.Skills: every dictionary keyword contained
(case-insensitively) in the text, in dictionary order, deduplicated. -/
def extractSkills (text : String) : List String :=
  let textLower := lowerStr text
  RemoveDuplicates
    (skillKeywords.filter (fun skill => strContains textLower (lowerStr skill)))

/-- Evaluation lemma: the first early return of calculateStringSimilarity
(empty s1) yields the length of s2. -/
theorem calcSim_left_empty (s2 : String) :
    calculateStringSimilarity "" s2 = (s2.length : ℚ) := by
  unfold calculateStringSimilarity
  rw [if_pos]
  rfl

/-- Evaluation lemma: on two nonempty strings calculateStringSimilarity is the
normalized 1 − distance/maxLen. -/
theorem calcSim_nonempty (s1 s2 : String) (h1 : s1.length ≠ 0) (h2 : s2.length ≠ 0) :
    calculateStringSimilarity s1 s2 =
      1 - (levDistance s1.toList s2.toList : ℚ) / ((max s1.length s2.length : ℕ) : ℚ) := by
  have hmax : max s1.length s2.length ≠ 0 := by
    intro h
    exact h1 (Nat.max_eq_zero_iff.mp h).1
  unfold calculateStringSimilarity
  rw [if_neg h1, if_neg h2]
  simp only [if_neg hmax]

/-- C1 counterexample.  The claim says educationMatches "B.S." "bachelor" is
true via the alias table; in fact it is false: lower-casing gives "b.s.",
no direct containment with "bachelor" holds, and none of the bachelor aliases
("bs", "ba", "btech", "bsc", "bachelor's") occurs as a contiguous substring of
"b.s." (the alias "bs" has no period between the letters). -/
theorem C1_counterexample : educationMatches "B.S." "bachelor" = false := by decide

/-- C1 amended: without the periods the alias table does fire: candidate degree
"BS" against required degree "bachelor" matches (lower-cased "bs" contains the
alias "bs", "bachelor" contains the class name "bachelor", no direct substring
containment holds in either direction). -/
theorem C1_amended : educationMatches "BS" "bachelor" = true := by decide

/-- C2: evaluation of the code at the failing input.  calculateStringSimilarity
on two empty strings returns 0, not 1: the len(s1) == 0 early return yields
float64(len(s2)) = 0 before the (consequently unreachable) maxLen == 0 branch
that would return 1.0 can be taken. -/
theorem C2_sim_empty_empty : calculateStringSimilarity "" "" = 0 := by decide

/-- C3 counterexample.  The claim says the experience Score is in [0,1] even
when an entry ends before it starts; in fact a resume with one entry of
duration minus two years against a one-year requirement scores
candidateYears/requiredYears = −2 < 0 (the cap only clips values above 1). -/
theorem C3_counterexample : (calculateExperienceMatch 0 r3 jd3).Score < 0 := by
  norm_num [calculateExperienceMatch, CalculateExperienceYears, r3, jd3, expBackwards]

/-- C3 amended: the experience Score is in [0,1] whenever the summed candidate
years are nonnegative (in particular whenever every entry ends no earlier than
it starts); with negative candidate years and a positive requirement the score
is the negative quotient candidateYears/requiredYears. -/
theorem C3_amended (now : ℚ) (r : Resume) (jd : JobDescription)
    (h : 0 ≤ CalculateExperienceYears now r) :
    0 ≤ (calculateExperienceMatch now r jd).Score ∧
      (calculateExperienceMatch now r jd).Score ≤ 1 := by
  unfold calculateExperienceMatch
  dsimp only
  split_ifs with h1 h2 h3
  · exact ⟨zero_le_one, le_refl 1⟩
  · exact ⟨zero_le_one, le_refl 1⟩
  · exact ⟨zero_le_one, le_refl 1⟩
  · have hlt : CalculateExperienceYears now r < (jd.MinExperience : ℚ) := not_le.mp h2
    have hpos : (0 : ℚ) < (jd.MinExperience : ℚ) := lt_of_le_of_lt h hlt
    exact ⟨div_nonneg h (le_of_lt hpos), not_lt.mp h3⟩

/-- C3 witness: a resume without experience entries has candidate years 0 ≥ 0,
so against the one-year requirement its score lies in [0,1]. -/
theorem C3_witness :
    0 ≤ CalculateExperienceYears 0 rEmpty ∧
      0 ≤ (calculateExperienceMatch 0 rEmpty jd3).Score ∧
        (calculateExperienceMatch 0 rEmpty jd3).Score ≤ 1 :=
  ⟨by simp [CalculateExperienceYears, rEmpty],
   C3_amended 0 rEmpty jd3 (by simp [CalculateExperienceYears, rEmpty])⟩

/-- C4 counterexample.  The claim says the analysis operations do not depend on
the ambient clock; in fact CalculateExperienceYears (called by AnalyzeResume
and AnalyzeResumeStandalone through Resume.CalculateExperienceYears, where now
is time.Now()) returns different values at two different clock readings for a
resume whose experience entry has no end date: one year at now = 8766 hours,
zero years at now = 0. -/
theorem C4_counterexample :
    CalculateExperienceYears 8766 r4 ≠ CalculateExperienceYears 0 r4 := by
  norm_num [CalculateExperienceYears, r4, expOpen]

/-- C4 amended: the clock dependence of the scoring operations is confined to
CalculateExperienceYears and vanishes exactly on resumes all of whose
experience entries carry an end date: with the clock an explicit input,
CalculateExperienceYears is then independent of the reading.  No determinism
is asserted for ParseJobDescription: its Keywords field comes from
ExtractKeywords, whose output order is nondeterministic independently of the
clock (randomized map iteration and an unstable sort, modelled by
ExtractKeywordsCanReturn), so the original purity claim fails there for a
second reason. -/
theorem C4_amended (r : Resume) (h : ∀ e ∈ r.Experience, e.EndDate ≠ none)
    (n1 n2 : ℚ) : CalculateExperienceYears n1 r = CalculateExperienceYears n2 r := by
  unfold CalculateExperienceYears
  have hmap : r.Experience.map (fun exp =>
      (exp.EndDate.getD n1 - exp.StartDate) / (24 * 365.25)) =
      r.Experience.map (fun exp =>
      (exp.EndDate.getD n2 - exp.StartDate) / (24 * 365.25)) := by
    refine List.map_congr_left ?_
    intro e he
    rcases heq : e.EndDate with _ | v
    · exact absurd heq (h e he)
    · simp [heq]
  simpa using congrArg List.sum hmap

/-- C4 witness: for the resume whose only entry has an explicit end date the
computed years agree at two different clock readings. -/
theorem C4_witness :
    (∀ e ∈ r4w.Experience, e.EndDate ≠ none) ∧
      CalculateExperienceYears 8766 r4w = CalculateExperienceYears 0 r4w :=
  ⟨by decide, C4_amended r4w (by decide) 8766 0⟩

/-- C5: CalculateSkillMatch on resume skills python, java and job skills
python, go returns percentage 50, matched exactly python, missing exactly go:
python matches exactly, go matches neither exactly nor fuzzily (its
Levenshtein similarity to python and to java is at most 0.8). -/
theorem C5_skill_match :
    CalculateSkillMatch ["python", "java"] ["python", "go"] =
      (50, ["python"], ["go"]) := by
  have hf1 : ¬ (calculateStringSimilarity "python" "go" > (0.8 : ℚ)) := by
    rw [calcSim_nonempty "python" "go" (by decide) (by decide),
      show levDistance "python".toList "go".toList = 5 from by decide,
      show max "python".length "go".length = 6 from by decide]
    norm_num
  have hf2 : ¬ (calculateStringSimilarity "java" "go" > (0.8 : ℚ)) := by
    rw [calcSim_nonempty "java" "go" (by decide) (by decide),
      show levDistance "java".toList "go".toList = 4 from by decide,
      show max "java".length "go".length = 4 from by decide]
    norm_num
  have hscan : skillScan (List.map lowerStr ["python", "java"]) ["python", "go"] =
      (["python"], ["go"]) := by
    rw [show List.map lowerStr ["python", "java"] = ["python", "java"] from by decide]
    simp only [skillScan,
      show lowerStr "python" = "python" from by decide,
      show lowerStr "go" = "go" from by decide,
      show List.contains ["python", "java"] "python" = true from by decide,
      show List.contains ["python", "java"] "go" = false from by decide,
      decide_eq_false hf1, decide_eq_false hf2]
    simp [hf1, hf2]
  simp only [CalculateSkillMatch]
  rw [hscan]
  norm_num

/-- Lower-casing a string preserves its length. -/
theorem lowerStr_length (s : String) : (lowerStr s).length = s.length := by
  cases s with
  | mk data => exact List.length_map data lowerChar

/-- If the resume set contains the empty string, every nonempty job skill is
matched: the fuzzy check compares against the 0.8 threshold the value
calculateStringSimilarity "" jobSkillLower = length of jobSkillLower ≥ 1. -/
theorem skillScan_with_empty (resumeSet : List String) (h : "" ∈ resumeSet)
    (jobSkills : List String) (hjob : ∀ s ∈ jobSkills, s ≠ "") :
    skillScan resumeSet jobSkills = (jobSkills, []) := by
  induction jobSkills with
  | nil => rfl
  | cons j rest ih =>
    have hne : j ≠ "" := hjob j (by simp)
    have hlen : 0 < (lowerStr j).length := by
      rw [lowerStr_length]
      rcases Nat.eq_zero_or_pos j.length with h0 | hpos
      · exact absurd (String.ext (List.length_eq_zero.mp h0)) hne
      · exact hpos
    have hfuzzy : resumeSet.any (fun resumeSkill =>
        decide (calculateStringSimilarity resumeSkill (lowerStr j) > (0.8 : ℚ))) = true := by
      refine List.any_eq_true.mpr ⟨"", h, ?_⟩
      refine decide_eq_true ?_
      rw [calcSim_left_empty]
      have h1 : (1 : ℚ) ≤ ((lowerStr j).length : ℚ) := by
        exact_mod_cast Nat.one_le_iff_ne_zero.mpr (Nat.pos_iff_ne_zero.mp hlen)
      calc (0.8 : ℚ) < 1 := by norm_num
        _ ≤ _ := h1
    simp only [skillScan, hfuzzy, Bool.or_true, if_true]
    rw [ih (fun s hs => hjob s (List.mem_cons_of_mem _ hs))]

/-- C10 counterexample.  The claim asserts percentage 100.0 for every list of
non-empty job skills; the empty list is such a list, yet there the percentage
is 0 (the division-by-zero guard returns 0 when no job skills are supplied). -/
theorem C10_counterexample :
    CalculateSkillMatch [""] [] = (0, [], []) ∧ (0 : ℚ) ≠ 100 := by
  constructor
  · rfl
  · norm_num

/-- C10 amended: if the resume skills contain the empty string then every
non-empty job skill is matched (similarity of "" to a non-empty lowered skill
is that skill's length ≥ 1 > 0.8), the missing list is empty, and the
percentage is 100 for a nonempty job list — but 0 for the empty job list. -/
theorem C10_amended (resumeSkills jobSkills : List String)
    (hres : "" ∈ resumeSkills) (hjob : ∀ s ∈ jobSkills, s ≠ "") :
    CalculateSkillMatch resumeSkills jobSkills =
      ((if jobSkills = [] then 0 else 100), jobSkills, []) := by
  have hres' : "" ∈ List.map lowerStr resumeSkills :=
    List.mem_map.mpr ⟨"", hres, by decide⟩
  simp only [CalculateSkillMatch]
  rw [skillScan_with_empty _ hres' jobSkills hjob]
  cases jobSkills with
  | nil => simp
  | cons j rest =>
    have hpos : 0 < (j :: rest).length := Nat.succ_pos rest.length
    have hlen : ((j :: rest).length : ℚ) ≠ 0 :=
      Nat.cast_ne_zero.mpr (Nat.succ_ne_zero rest.length)
    rw [if_pos hpos, if_neg (List.cons_ne_nil j rest), div_self hlen, one_mul]

/-- C10 witness: resume skills containing "" against the single non-empty job
skill "go" give a full match with percentage 100. -/
theorem C10_witness :
    ("" ∈ [""]) ∧ (∀ s ∈ ["go"], s ≠ "") ∧
      CalculateSkillMatch [""] ["go"] = (100, ["go"], []) := by
  refine ⟨by decide, by decide, ?_⟩
  have h := C10_amended [""] ["go"] (by decide) (by decide)
  simpa using h

/-- The projCollect loop with fuel k keeps, from the first k lines, exactly
those whose trimmed length exceeds 10. -/
theorem projCollect_eq_filterMap (k : Nat) (l : List String) :
    projCollect k l = (l.take k).filterMap projEntry := by
  induction k generalizing l with
  | zero => simp [projCollect]
  | succ k ih =>
    cases l with
    | nil => simp [projCollect]
    | cons x xs =>
      by_cases h : 10 < (trimStr x).length
      · simp [projCollect, projEntry, h, ih]
      · simp [projCollect, projEntry, h, ih]

/-- C6 counterexample.  The claim says the 10 lines following the first
project-pattern line are scanned; in fact only 9 are: on a text whose heading
is followed by ten 12-character lines, all ten qualify by length, yet only 9
Project entries are produced (the loop runs j from i+1 while j < i+10). -/
theorem C6_counterexample :
    (extractProjects ex6).length = 9 ∧
      (((splitLines ex6).drop 1).filter
        (fun l => decide (10 < (trimStr l).length))).length = 10 := by decide

/-- C6 amended: project extraction collects up to the next NINE lines after
the first line matching the project-keyword pattern: every one of those 9
following lines whose trimmed length exceeds 10 becomes a Project entry with
Name equal to Description, and no line beyond the ninth following line is
collected. -/
theorem C6_amended (text : String) (i : Nat)
    (h : (splitLines text).findIdx? projectLineMatches = some i) :
    extractProjects text =
      (((splitLines text).drop (i + 1)).take 9).filterMap projEntry := by
  simp only [extractProjects, h]
  rw [projCollect_eq_filterMap]

/-- C6 witness: on a heading followed by one long line the first matching line
has index 0 and extraction equals the take-9/filterMap characterization. -/
theorem C6_witness :
    (splitLines ex6w).findIdx? projectLineMatches = some 0 ∧
      extractProjects ex6w =
        (((splitLines ex6w).drop (0 + 1)).take 9).filterMap projEntry :=
  ⟨by decide, C6_amended ex6w 0 (by decide)⟩

/-- Membership in the deduplicated list: present in the input and not among
the already-seen keys. -/
theorem mem_dedupGo : ∀ (l seen : List String) (x : String),
    x ∈ dedupGo l seen ↔ x ∈ l ∧ x ∉ seen := by
  intro l
  induction l with
  | nil => intro seen x; simp [dedupGo]
  | cons a as ih =>
    intro seen x
    by_cases ha : a ∈ seen
    · simp only [dedupGo, if_pos ha, ih, List.mem_cons]
      constructor
      · exact fun ⟨h1, h2⟩ => ⟨Or.inr h1, h2⟩
      · rintro ⟨h1 | h1, h2⟩
        · exact absurd (h1 ▸ ha) h2
        · exact ⟨h1, h2⟩
    · simp only [dedupGo, if_neg ha, List.mem_cons, ih, List.mem_cons]
      constructor
      · rintro (rfl | ⟨h1, h2⟩)
        · exact ⟨Or.inl rfl, ha⟩
        · exact ⟨Or.inr h1, fun hx => h2 (Or.inr hx)⟩
      · rintro ⟨rfl | h1, h2⟩
        · exact Or.inl rfl
        · by_cases hxa : x = a
          · exact Or.inl hxa
          · exact Or.inr ⟨h1, fun hx => (hx.elim hxa h2 : False)⟩

/-- The deduplicated list has no duplicates. -/
theorem nodup_dedupGo : ∀ (l seen : List String), (dedupGo l seen).Nodup := by
  intro l
  induction l with
  | nil => intro seen; simp [dedupGo]
  | cons a as ih =>
    intro seen
    by_cases ha : a ∈ seen
    · simpa [dedupGo, if_pos ha] using ih seen
    · simp only [dedupGo, if_neg ha]
      refine List.nodup_cons.mpr ⟨?_, ih _⟩
      intro hmem
      exact ((mem_dedupGo as (a :: seen) a).mp hmem).2 (List.mem_cons_self a seen)

/-- Looking up a key in an association list whose values are computed by a
function of the key yields that function value iff the key occurs. -/
theorem lookup_map_self (f : String → Nat) :
    ∀ (l : List String) (a : String),
      ((l.map (fun t => (t, f t))).lookup a) =
        if a ∈ l then some (f a) else none := by
  intro l
  induction l with
  | nil => intro a; simp
  | cons x xs ih =>
    intro a
    by_cases hax : a = x
    · subst hax
      simp [List.lookup]
    · simp [List.lookup, beq_false_of_ne hax, hax, ih]

/-- An entry of the term-frequency list is a token of the input together with
its occurrence count. -/
theorem termFreq_mem {ts : List String} {p : String × Nat}
    (h : p ∈ termFreqList ts) : p.1 ∈ ts ∧ p.2 = ts.count p.1 := by
  rcases List.mem_map.mp h with ⟨t, ht, rfl⟩
  exact ⟨((mem_dedupGo ts [] t).mp ht).1, rfl⟩

/-- Looking a token up in the term-frequency list of a token sequence returns
its count when it occurs. -/
theorem tfOf_termFreq (ts : List String) (a : String) :
    tfOf (termFreqList ts) a = if a ∈ ts then ts.count a else 0 := by
  unfold tfOf termFreqList
  rw [show (dedupGo ts []).map (fun t => (t, ts.count t)) =
        (dedupGo ts []).map (fun t => (t, ts.count t)) from rfl,
    lookup_map_self (fun t => ts.count t) (dedupGo ts []) a]
  by_cases hmem : a ∈ ts
  · rw [if_pos ((mem_dedupGo ts [] a).mpr ⟨hmem, List.not_mem_nil a⟩), if_pos hmem]
    rfl
  · rw [if_neg (fun hx => hmem ((mem_dedupGo ts [] a).mp hx).1), if_neg hmem]
    rfl

/-- C7 counterexample.  The claim says ExtractKeywords breaks frequency ties
by first-encounter order and is a deterministic function of the text; in fact
on the text "alpha beta" with topK 1 both outputs are reachable (the Go
termFreq map is iterated in randomized order and sort.Slice is unstable), and
the reachable output ["beta"] contradicts the first-encounter tie-break,
which would mandate ["alpha"]. -/
theorem C7_counterexample :
    ExtractKeywordsCanReturn "alpha beta" 1 ["alpha"] ∧
      ExtractKeywordsCanReturn "alpha beta" 1 ["beta"] ∧
        (["alpha"] : List String) ≠ ["beta"] := by
  have htf : termFreqList (Tokenize "alpha beta") = [("alpha", 1), ("beta", 1)] := by
    decide
  refine ⟨⟨[("alpha", 1), ("beta", 1)], ?_, by decide, by decide⟩,
    ⟨[("beta", 1), ("alpha", 1)], ?_, by decide, by decide⟩, by decide⟩
  · rw [htf]
  · rw [htf]
    exact List.Perm.swap ("alpha", 1) ("beta", 1) []

/-- C7 amended: every reachable output of ExtractKeywords has length
min(topK, number of distinct tokens), consists of tokens of the text, and is
weakly sorted by descending raw term frequency — but the order among
equal-frequency terms is unspecified (randomized map iteration and an
unstable sort), so the output is not a deterministic function of the text. -/
theorem C7_amended (text : String) (topK : Nat) (ys : List String)
    (h : ExtractKeywordsCanReturn text topK ys) :
    ys.length = min topK (termFreqList (Tokenize text)).length ∧
      (∀ s ∈ ys, s ∈ Tokenize text) ∧
        ys.Pairwise (fun a b =>
          (Tokenize text).count b ≤ (Tokenize text).count a) := by
  obtain ⟨l, hperm, hsort, hys⟩ := h
  subst hys
  refine ⟨?_, ?_, ?_⟩
  · rw [List.length_take, List.length_map, hperm.length_eq]
  · intro s hs
    have hs' : s ∈ l.map Prod.fst := (List.take_sublist topK _).subset hs
    rcases List.mem_map.mp hs' with ⟨p, hp, rfl⟩
    exact (termFreq_mem (hperm.subset hp)).1
  · have hval : ∀ p ∈ l, p.2 = (Tokenize text).count p.1 :=
      fun p hp => (termFreq_mem (hperm.subset hp)).2
    have h2 : l.Pairwise (fun a b =>
        (Tokenize text).count b.1 ≤ (Tokenize text).count a.1) := by
      refine List.Pairwise.imp_of_mem ?_ hsort
      intro a b ha hb hr
      rw [← hval a ha, ← hval b hb]
      exact hr
    exact (List.pairwise_map.mpr h2).sublist (List.take_sublist topK _)

/-- C7 witness: on "alpha beta beta" with topK 2 the output ["beta", "alpha"]
is reachable and satisfies the amended description. -/
theorem C7_witness :
    ExtractKeywordsCanReturn "alpha beta beta" 2 ["beta", "alpha"] ∧
      (["beta", "alpha"].length =
          min 2 (termFreqList (Tokenize "alpha beta beta")).length ∧
        (∀ s ∈ ["beta", "alpha"], s ∈ Tokenize "alpha beta beta") ∧
          List.Pairwise (fun a b => (Tokenize "alpha beta beta").count b ≤
            (Tokenize "alpha beta beta").count a) ["beta", "alpha"]) := by
  have hadm : ExtractKeywordsCanReturn "alpha beta beta" 2 ["beta", "alpha"] := by
    refine ⟨[("beta", 2), ("alpha", 1)], ?_, by decide, by decide⟩
    rw [show termFreqList (Tokenize "alpha beta beta") =
      [("alpha", 1), ("beta", 2)] from by decide]
    exact List.Perm.swap ("alpha", 1) ("beta", 2) []
  exact ⟨hadm, C7_amended "alpha beta beta" 2 ["beta", "alpha"] hadm⟩

/-- C8: a term occurring in every document of a nonempty corpus receives an
aggregate TF-IDF score of exactly 0: df equals the document count, so
idf = log(N/N) = log 1 = 0, and every per-document contribution
normalizedTF · idf vanishes regardless of the term's raw frequency. -/
theorem C8_tfidf_zero (documents : List String) (term : String)
    (hne : documents ≠ [])
    (hall : ∀ d ∈ documents, term ∈ Tokenize d) :
    CalculateTFIDF documents term = 0 := by
  have hpos : ∀ doc ∈ documents.map (fun d => termFreqList (Tokenize d)),
      0 < tfOf doc term := by
    intro doc hdoc
    rcases List.mem_map.mp hdoc with ⟨d, hd, rfl⟩
    rw [tfOf_termFreq, if_pos (hall d hd)]
    exact List.count_pos_iff.mpr (hall d hd)
  have hfilter : (documents.map (fun d => termFreqList (Tokenize d))).filter
      (fun doc => decide (0 < tfOf doc term)) =
      documents.map (fun d => termFreqList (Tokenize d)) :=
    List.filter_eq_self.mpr (fun doc hd => decide_eq_true (hpos doc hd))
  have hn : ((documents.length : ℕ) : ℝ) ≠ 0 :=
    Nat.cast_ne_zero.mpr (fun h0 => hne (List.length_eq_zero.mp h0))
  simp only [CalculateTFIDF, hfilter, List.length_map, div_self hn, Real.log_one,
    mul_zero, ite_self]
  exact List.sum_eq_zero (fun x hx => ((List.mem_map.mp hx).choose_spec.2).symm)

/-- C8 witness: over the two-document corpus with "alpha" in both documents
the aggregate score of "alpha" is exactly 0. -/
theorem C8_witness :
    (["alpha beta", "alpha gamma"] : List String) ≠ [] ∧
      (∀ d ∈ (["alpha beta", "alpha gamma"] : List String), "alpha" ∈ Tokenize d) ∧
        CalculateTFIDF ["alpha beta", "alpha gamma"] "alpha" = 0 :=
  ⟨by decide, by decide, C8_tfidf_zero ["alpha beta", "alpha gamma"] "alpha"
    (by decide) (by decide)⟩

/-- Every element of removeDupAux is the trim of an input element and is not
among the given keys. -/
theorem mem_removeDupAux : ∀ (l keys : List String) (x : String),
    x ∈ removeDupAux keys l → x ∉ keys ∧ ∃ y ∈ l, x = trimStr y := by
  intro l
  induction l with
  | nil => intro keys x h; simp [removeDupAux] at h
  | cons a as ih =>
    intro keys x h
    by_cases hc : trimStr a ≠ "" ∧ trimStr a ∉ keys
    · simp only [removeDupAux, if_pos hc] at h
      rcases List.mem_cons.mp h with rfl | h
      · exact ⟨hc.2, a, List.mem_cons_self a as, rfl⟩
      · obtain ⟨hk, y, hy, rfl⟩ := ih (trimStr a :: keys) x h
        exact ⟨fun hx => hk (List.mem_cons_of_mem _ hx), y,
          List.mem_cons_of_mem _ hy, rfl⟩
    · simp only [removeDupAux, if_neg hc] at h
      obtain ⟨hk, y, hy, rfl⟩ := ih keys x h
      exact ⟨hk, y, List.mem_cons_of_mem _ hy, rfl⟩

/-- removeDupAux returns a list without duplicates. -/
theorem nodup_removeDupAux : ∀ (l keys : List String),
    (removeDupAux keys l).Nodup := by
  intro l
  induction l with
  | nil => intro keys; simp [removeDupAux]
  | cons a as ih =>
    intro keys
    by_cases hc : trimStr a ≠ "" ∧ trimStr a ∉ keys
    · simp only [removeDupAux, if_pos hc]
      refine List.nodup_cons.mpr ⟨?_, ih _⟩
      intro hmem
      exact (mem_removeDupAux as (trimStr a :: keys) _ hmem).1
        (List.mem_cons_self _ _)
    · simp only [removeDupAux, if_neg hc]
      exact ih keys

/-- C9: for every input text the extracted Skills list (the value ParseResume
stores into Resume.Skills) contains no two entries that agree after
lower-casing: every entry is an already-lowercase dictionary keyword (fixed by
trim and by ToLower), and the case-sensitive deduplication therefore also
separates the entries case-insensitively. -/
theorem C9_skills_ci_nodup (text : String) :
    (extractSkills text).Pairwise (fun a b => lowerStr a ≠ lowerStr b) := by
  have hfix : ∀ y ∈ skillKeywords, trimStr y = y ∧ lowerStr y = y := by decide
  have hnd : (extractSkills text).Nodup := by
    simp only [extractSkills, RemoveDuplicates]
    exact nodup_removeDupAux _ _
  have hmem : ∀ x ∈ extractSkills text, lowerStr x = x := by
    intro x hx
    simp only [extractSkills, RemoveDuplicates] at hx
    obtain ⟨-, y, hy, rfl⟩ := mem_removeDupAux _ _ _ hx
    have hyk : y ∈ skillKeywords := List.mem_of_mem_filter hy
    rw [(hfix y hyk).1]
    exact (hfix y hyk).2
  refine List.Pairwise.imp_of_mem ?_ hnd
  intro a b ha hb hne
  rw [hmem a ha, hmem b hb]
  exact hne
